import Mathlib

/-!
Verification of the naive Monte Carlo integrator specification for this
repository.  The repository ships the integrator's test suite
(src/test/naive_monte_carlo_test.cpp) but not the integrator header itself
(boost/math/quadrature/naive_monte_carlo.hpp), so the integrator's data model
and operations are modelled from the specification and verified against the
behaviour the tests pin down.

The development has four parts:
1. the online statistics accumulator (count / running mean / M2) with the
   parallel combination formula, its algebraic laws, and closed forms;
2. the worker loop with cooperative cancellation and the termination check;
3. the integrand evaluation pipeline with NaN propagation and the
   result-or-error union for integrand failures;
4. the controller state machine, bound validation, and the bounds normalizer
   with the infinite-domain substitution rules and their Jacobians.
-/

namespace MonteCarlo

/-- Modelled from the spec: the shared accumulator state of the missing
integrator (sample_count, running_mean, running_sum_sq_deviation).  Spec §3:
"Accumulator state: sample_count, running_mean, running_sum_sq_deviation (M2,
for variance)". -/
@[ext]
structure Accum where
  count : ℕ
  mean : ℚ
  m2 : ℚ
deriving DecidableEq

/-- The accumulator reset to zero, as at the start of each `integrate()`. -/
def Accum.empty : Accum := ⟨0, 0, 0⟩

/-- The accumulator holding a single function evaluation. -/
def Accum.single (x : ℚ) : Accum := ⟨1, x, 0⟩

/-- Modelled from the spec: the parallel variance combination used by the
missing `merge` operation — a two-pass-stable combination of two partial
(count, mean, M2) statistics, not naive summation of squares (spec §4.2). -/
def Accum.merge (a b : Accum) : Accum :=
  ⟨a.count + b.count,
   ((a.count : ℚ) * a.mean + (b.count : ℚ) * b.mean) / ((a.count : ℚ) + (b.count : ℚ)),
   a.m2 + b.m2 +
     (b.mean - a.mean) ^ 2 * (a.count : ℚ) * (b.count : ℚ) / ((a.count : ℚ) + (b.count : ℚ))⟩

/-- The moment key of an accumulator: (count, count·mean, M2 + count·mean²),
i.e. the raw moments (n, Σx, Σx²) it represents. -/
def Accum.key (a : Accum) : ℕ × ℚ × ℚ :=
  (a.count, (a.count : ℚ) * a.mean, a.m2 + (a.count : ℚ) * a.mean ^ 2)

/-- Rebuild an accumulator from a raw moment triple. -/
def Accum.ofKey (k : ℕ × ℚ × ℚ) : Accum :=
  ⟨k.1, k.2.1 / (k.1 : ℚ), k.2.2 - k.2.1 ^ 2 / (k.1 : ℚ)⟩

/-- The multiset of all function evaluations folded into one accumulator, each
evaluation entering as a singleton batch. -/
def accumOf : List ℚ → Accum
  | [] => Accum.empty
  | x :: xs => (Accum.single x).merge (accumOf xs)

/-- Sum of squares of a list of function evaluations. -/
def sumSq (l : List ℚ) : ℚ := (l.map (fun x => x ^ 2)).sum

/-- Modelled from the spec: `merge(batch_sum, batch_sum_sq, batch_count)`
(spec §4.2) — a worker's locally computed partial sums entering the shared
accumulator. -/
def Accum.mergeBatch (a : Accum) (s ssq : ℚ) (n : ℕ) : Accum :=
  a.merge ⟨n, s / (n : ℚ), ssq - s ^ 2 / (n : ℚ)⟩

/-- Modelled from the spec: `variance()` of the missing accumulator — sample
variance `M2/(count-1)` for count > 1, else zero (spec §3). -/
def Accum.variance (a : Accum) : ℚ :=
  if 2 ≤ a.count then a.m2 / ((a.count : ℚ) - 1) else 0

/-- Modelled from the spec: `calls()` — the number of integrand evaluations. -/
def Accum.calls (a : Accum) : ℕ := a.count

/-- Modelled from the spec: the integral estimate the handle resolves with —
the running mean rescaled by the domain volume (spec §2). -/
def estimate (vol : ℚ) (a : Accum) : ℚ := vol * a.mean

/-- Modelled from the spec: `current_error_estimate()` of the missing
controller, `domain_volume * sqrt(variance()/count())` (spec §4.2). -/
noncomputable def currentErrorEstimate (vol : ℚ) (a : Accum) : ℝ :=
  (vol : ℝ) * Real.sqrt ((a.variance : ℝ) / (a.count : ℝ))

/-- Volume of a finite hyper-rectangle integration domain. -/
def domainVolume (bounds : List (ℚ × ℚ)) : ℚ := (bounds.map (fun p => p.2 - p.1)).prod

/-- Modelled from the spec: the per-worker batch size B of the missing worker
loop; spec §4.3 leaves B as a single implementation choice, and the test suite
requires any completed run to have made more than 1000 integrand calls, so the
modelled implementation draws 2048 samples per batch. -/
def batchSize : ℕ := 2048

/-- Modelled from the spec: the termination check `error_estimate() ≤
target_error` (spec §4.3), evaluated through the equivalent squared comparison
`volume² · variance/count ≤ target²` so that it is decidable in the rational
model. -/
def doneCheck (vol target : ℚ) (a : Accum) : Bool :=
  decide (vol ^ 2 * (a.variance / (a.count : ℚ)) ≤ target ^ 2)

/-- Result of a finished run: the final accumulator and whether completion was
normal (termination check fired) as opposed to a cancellation. -/
structure RunResult where
  acc : Accum
  normalCompletion : Bool
deriving DecidableEq

/-- Modelled from the spec: the worker loop (spec §4.3), sequentialized (the
merge operation's order independence is proved separately): repeatedly draw a
batch, merge it into the shared accumulator, then observe the cooperative
cancellation flag — exiting with the statistics accumulated so far — and
otherwise the termination check.  `fuel` bounds the number of iterations;
`none` models a run that has not terminated within the fuel. -/
def runLoop (batches : ℕ → List ℚ) (vol target : ℚ) (cancelFlag : ℕ → Bool) :
    ℕ → ℕ → Accum → Option RunResult
  | 0, _, _ => none
  | fuel + 1, k, acc =>
    let acc2 := acc.merge (accumOf (batches k))
    if cancelFlag k then some ⟨acc2, false⟩
    else if doneCheck vol target acc2 then some ⟨acc2, true⟩
    else runLoop batches vol target cancelFlag fuel (k + 1) acc2

/-- The deterministic equidistributed sample sequence (midpoints of the n
equal subintervals of [0,1]) on which the statistical convergence claims are
settled. -/
def equiSamples (n : ℕ) : List ℚ :=
  (List.range n).map (fun (i : ℕ) => (2 * (i : ℚ) + 1) / (2 * (n : ℚ)))

/-- Modelled from the spec: the value domain of integrand evaluations in the
missing worker loop — a finite value or NaN; a singular evaluation such as
`1/0` produces NaN, which then propagates through arithmetic instead of being
filtered (spec §4.3, §7). -/
inductive MVal
  | fin : ℚ → MVal
  | nan : MVal
deriving DecidableEq

/-- NaN-propagating addition. -/
def MVal.add : MVal → MVal → MVal
  | .fin a, .fin b => .fin (a + b)
  | _, _ => .nan

/-- NaN-propagating multiplication. -/
def MVal.mul : MVal → MVal → MVal
  | .fin a, .fin b => .fin (a * b)
  | _, _ => .nan

/-- NaN-propagating division; a zero divisor yields NaN (the singular case
`1/0` of the tests). -/
def MVal.div : MVal → MVal → MVal
  | .fin a, .fin b => if b = 0 then .nan else .fin (a / b)
  | _, _ => .nan

/-- Whether a value is the NaN result. -/
def MVal.isNaN : MVal → Bool
  | .nan => true
  | _ => false

/-- Modelled from the spec (§9): worker-side evaluation of the integrand over
the sampled points, the integrand returning an explicit result-or-error union;
the first failure aborts the whole computation ("first failure wins", spec §7)
and NaN values propagate into the running sum rather than being discarded
(spec §4.3). -/
def evalSamples (g : List ℚ → Except String MVal) : List (List ℚ) → Except String MVal
  | [] => .ok (.fin 0)
  | p :: ps =>
    match g p with
    | .error e => .error e
    | .ok v =>
      match evalSamples g ps with
      | .error e => .error e
      | .ok s => .ok (v.add s)

/-- Modelled from the spec: the pending handle's resolution — either the
propagated first integrand failure, or the mean of the evaluations rescaled
by the domain volume (spec §2, §6). -/
def integrateHandle (g : List ℚ → Except String MVal) (samples : List (List ℚ))
    (vol : ℚ) : Except String MVal :=
  match evalSamples g samples with
  | .error e => .error e
  | .ok s => .ok ((MVal.fin vol).mul (s.div (.fin (samples.length : ℚ))))

/-- Modelled from the spec: a caller-supplied bound, either finite or a signed
infinity sentinel (spec §6). -/
inductive QBnd
  | val : ℚ → QBnd
  | posInf : QBnd
  | negInf : QBnd
deriving DecidableEq

/-- Modelled from the spec (§4.1): a dimension's bound pair is valid unless
`low ≥ high` with both finite, `low == high` generally, or the pair is not of
the admissible shape (finite or -∞ lower, finite or +∞ upper). -/
def validPair : QBnd → QBnd → Bool
  | .val lo, .val hi => decide (lo < hi)
  | .val _, .posInf => true
  | .negInf, .val _ => true
  | .negInf, .posInf => true
  | _, _ => false

/-- Modelled from the spec (§7): the error taxonomy of the controller. -/
inductive MCError
  | invalidBoundsError
  | invalidToleranceError
  | alreadyRunningError
  | stateError
deriving DecidableEq

/-- Modelled from the spec (§3): the controller state machine's states. -/
inductive CtrlState
  | idle
  | running
  | canceling
  | completed
  | failed
deriving DecidableEq

/-- Modelled from the spec: the Integrator Controller's configuration. -/
structure Controller where
  bounds : List (QBnd × QBnd)
  targetError : ℚ
  state : CtrlState
deriving DecidableEq

/-- Modelled from the spec (§4.4): construction validates the bounds via the
normalizer and requires a strictly positive target error; the controller
starts Idle (spec §3). -/
def construct (bounds : List (QBnd × QBnd)) (targetError : ℚ) :
    Except MCError Controller :=
  if bounds.any (fun p => !validPair p.1 p.2) then .error .invalidBoundsError
  else if targetError ≤ 0 then .error .invalidToleranceError
  else .ok ⟨bounds, targetError, .idle⟩

/-- Modelled from the spec (§4.4, §3): `integrate()` transitions Idle or
Completed to Running; calling it while a run is active is a state-machine
misuse. -/
def startIntegrate (c : Controller) : Except MCError Controller :=
  match c.state with
  | .idle => .ok ⟨c.bounds, c.targetError, .running⟩
  | .completed => .ok ⟨c.bounds, c.targetError, .running⟩
  | .running => .error .alreadyRunningError
  | .canceling => .error .alreadyRunningError
  | .failed => .error .stateError

/-- Modelled from the spec (§4.4): `update_target_error` is only valid when no
run is active (Idle or Completed); otherwise it fails with StateError. -/
def updateTargetError (c : Controller) (newTarget : ℚ) : Except MCError Controller :=
  match c.state with
  | .idle => .ok ⟨c.bounds, newTarget, c.state⟩
  | .completed => .ok ⟨c.bounds, newTarget, c.state⟩
  | _ => .error .stateError

/-- Modelled from the spec (§4.4): `cancel()` requests a cooperative stop and
is a no-op when no run is active. -/
def cancel (c : Controller) : Controller :=
  if c.state = .running then ⟨c.bounds, c.targetError, .canceling⟩ else c

noncomputable section

/-- Modelled from the spec (§3): the per-dimension substitution rule variant
computed once by the Bounds Normalizer. -/
inductive SubstitutionRule
  | identity : SubstitutionRule
  | upperInfinite : ℝ → SubstitutionRule
  | lowerInfinite : ℝ → SubstitutionRule
  | doublyInfinite : SubstitutionRule

/-- Modelled from the spec (§4.1): the forward map from the finite sampling
variable `u ∈ (0,1)` to the true integration variable. -/
def SubstitutionRule.forwardMap : SubstitutionRule → ℝ → ℝ
  | .identity, u => u
  | .upperInfinite low, u => low + u / (1 - u)
  | .lowerInfinite high, u => high - u / (1 - u)
  | .doublyInfinite, u => (2 * u - 1) / (u * (1 - u))

/-- Modelled from the spec (§4.1): the Jacobian multiplier of the substitution
— the derivative (in absolute value) of the forward map in the sampling
variable. -/
def SubstitutionRule.jacobian : SubstitutionRule → ℝ → ℝ
  | .identity, _ => 1
  | .upperInfinite _, u => 1 / (1 - u) ^ 2
  | .lowerInfinite _, u => 1 / (1 - u) ^ 2
  | .doublyInfinite, u => (2 * u ^ 2 - 2 * u + 1) / (u ^ 2 * (1 - u) ^ 2)

/-- A caller bound over the reals, for the normalizer's dispatch. -/
inductive RBnd
  | val : ℝ → RBnd
  | posInf : RBnd
  | negInf : RBnd

/-- Modelled from the spec (§4.1): the Bounds Normalizer's per-dimension
policy choosing a substitution rule from the bound pair. -/
def substitutionFor : RBnd → RBnd → SubstitutionRule
  | .val _, .val _ => .identity
  | .val lo, .posInf => .upperInfinite lo
  | .negInf, .val hi => .lowerInfinite hi
  | .negInf, .posInf => .doublyInfinite
  | _, _ => .identity

/-- The integrand `f(x) = 1/(x²+1)` of the infinite-domain tests. -/
def cauchyIntegrand (x : ℝ) : ℝ := 1 / (x ^ 2 + 1)

/-- The integrand a worker actually evaluates after normalization: the
original integrand at the mapped point times the Jacobian (spec §4.3). -/
def transformedIntegrand (f : ℝ → ℝ) (r : SubstitutionRule) (u : ℝ) : ℝ :=
  f (r.forwardMap u) * r.jacobian u

end

theorem Accum.key_merge (a b : Accum) : (a.merge b).key = a.key + b.key := by
  rcases a with ⟨na, ma, qa⟩
  rcases b with ⟨nb, mb, qb⟩
  by_cases h : na + nb = 0
  · obtain ⟨h1, h2⟩ := Nat.add_eq_zero.mp h
    subst h1; subst h2
    simp [Accum.merge, Accum.key, Prod.ext_iff]
  · have hq : ((na : ℚ) + (nb : ℚ)) ≠ 0 := by
      have : ((na + nb : ℕ) : ℚ) ≠ 0 := Nat.cast_ne_zero.mpr h
      push_cast at this
      exact this
    simp only [Accum.merge, Accum.key, Prod.ext_iff, Prod.fst_add, Prod.snd_add]
    refine ⟨trivial, ?_, ?_⟩
    · push_cast
      field_simp
    · push_cast
      field_simp
      ring

theorem Accum.merge_eq_ofKey (a b : Accum) : a.merge b = Accum.ofKey (a.key + b.key) := by
  rcases a with ⟨na, ma, qa⟩
  rcases b with ⟨nb, mb, qb⟩
  by_cases h : na + nb = 0
  · obtain ⟨h1, h2⟩ := Nat.add_eq_zero.mp h
    subst h1; subst h2
    simp [Accum.merge, Accum.key, Accum.ofKey]
  · have hq : ((na : ℚ) + (nb : ℚ)) ≠ 0 := by
      have : ((na + nb : ℕ) : ℚ) ≠ 0 := Nat.cast_ne_zero.mpr h
      push_cast at this
      exact this
    ext
    · simp [Accum.merge, Accum.key, Accum.ofKey]
    · simp only [Accum.merge, Accum.key, Accum.ofKey, Prod.fst_add, Prod.snd_add]
      push_cast
      field_simp
    · simp only [Accum.merge, Accum.key, Accum.ofKey, Prod.fst_add, Prod.snd_add]
      push_cast
      field_simp
      ring

theorem Accum.merge_comm (a b : Accum) : a.merge b = b.merge a := by
  rw [Accum.merge_eq_ofKey, Accum.merge_eq_ofKey, add_comm]

theorem Accum.merge_assoc (a b c : Accum) :
    (a.merge b).merge c = a.merge (b.merge c) := by
  rw [Accum.merge_eq_ofKey (a.merge b) c, Accum.merge_eq_ofKey a (b.merge c),
    Accum.key_merge, Accum.key_merge, add_assoc]

theorem foldr_merge_perm {l₁ l₂ : List Accum} (h : l₁.Perm l₂) (init : Accum) :
    l₁.foldr Accum.merge init = l₂.foldr Accum.merge init := by
  induction h with
  | nil => rfl
  | cons x _ ih => simp only [List.foldr_cons, ih]
  | swap x y l =>
      simp only [List.foldr_cons]
      rw [← Accum.merge_assoc, Accum.merge_comm y x, Accum.merge_assoc]
  | trans _ _ ih1 ih2 => rw [ih1, ih2]

theorem accumOf_key (l : List ℚ) : (accumOf l).key = (l.length, l.sum, sumSq l) := by
  induction l with
  | nil => simp [accumOf, Accum.empty, Accum.key, sumSq]
  | cons x xs ih =>
      rw [accumOf, Accum.key_merge, ih]
      simp only [Accum.single, Accum.key, Prod.mk_add_mk, Prod.ext_iff, sumSq,
        List.length_cons, List.sum_cons, List.map_cons, Nat.cast_one]
      refine ⟨by omega, by ring, by simp [sumSq]⟩

theorem accumOf_eq (l : List ℚ) : accumOf l = Accum.ofKey (l.length, l.sum, sumSq l) := by
  cases l with
  | nil => simp [accumOf, Accum.empty, Accum.ofKey, sumSq]
  | cons x xs =>
      rw [accumOf, Accum.merge_eq_ofKey, accumOf_key]
      congr 1
      simp only [Accum.single, Accum.key, Prod.mk_add_mk, Prod.ext_iff, sumSq,
        List.length_cons, List.sum_cons, List.map_cons, Nat.cast_one]
      refine ⟨by omega, by ring, by simp [sumSq]⟩

theorem Accum.mergeBatch_eq (a : Accum) (l : List ℚ) :
    a.mergeBatch l.sum (sumSq l) l.length = a.merge (accumOf l) := by
  rw [Accum.mergeBatch, accumOf_eq, Accum.ofKey]

theorem Accum.m2_merge_nonneg {a b : Accum} (ha : 0 ≤ a.m2) (hb : 0 ≤ b.m2) :
    0 ≤ (a.merge b).m2 := by
  have h : 0 ≤ (b.mean - a.mean) ^ 2 * (a.count : ℚ) * (b.count : ℚ) /
      ((a.count : ℚ) + (b.count : ℚ)) := by positivity
  simpa [Accum.merge] using add_nonneg (add_nonneg ha hb) h

theorem accumOf_m2_nonneg (l : List ℚ) : 0 ≤ (accumOf l).m2 := by
  induction l with
  | nil => simp [accumOf, Accum.empty]
  | cons x xs ih => exact Accum.m2_merge_nonneg (by simp [Accum.single]) ih

theorem Accum.variance_nonneg {a : Accum} (h : 0 ≤ a.m2) : 0 ≤ a.variance := by
  unfold Accum.variance
  split
  · next h2 =>
      apply div_nonneg h
      have : (2 : ℚ) ≤ (a.count : ℚ) := by exact_mod_cast h2
      linarith
  · exact le_refl 0

theorem accumOf_replicate (n : ℕ) (c : ℚ) (hn : 1 ≤ n) :
    accumOf (List.replicate n c) = ⟨n, c, 0⟩ := by
  have hq : (n : ℚ) ≠ 0 := Nat.cast_ne_zero.mpr (by omega)
  rw [accumOf_eq]
  unfold sumSq
  rw [List.map_replicate]
  simp only [Accum.ofKey, List.length_replicate, List.sum_replicate, nsmul_eq_mul]
  ext
  · rfl
  · show (n : ℚ) * c / (n : ℚ) = c
    field_simp
  · show (n : ℚ) * c ^ 2 - ((n : ℚ) * c) ^ 2 / (n : ℚ) = 0
    field_simp
    ring

theorem variance_mk_zero (n : ℕ) (c : ℚ) : (Accum.mk n c 0).variance = 0 := by
  unfold Accum.variance
  split <;> simp

/-- C5: for a constant integrand c over any finite domain, the resolved
estimate equals c · volume exactly (hence is within any positive target
error), the sample variance is exactly zero at every sample count, and the
final `current_error_estimate()` is bounded by any positive tolerance — in
particular by a floating-point epsilon; in this exact-arithmetic model the
error estimate is exactly zero, while the floating source merely keeps it
below epsilon. -/
theorem c5_constant_integrand (bounds : List (ℚ × ℚ)) (c : ℚ) (n : ℕ) (hn : 1 ≤ n) :
    estimate (domainVolume bounds) (accumOf (List.replicate n c)) =
      c * domainVolume bounds ∧
    (accumOf (List.replicate n c)).variance = 0 ∧
    ∀ ε : ℝ, 0 < ε →
      currentErrorEstimate (domainVolume bounds) (accumOf (List.replicate n c)) ≤ ε := by
  rw [accumOf_replicate n c hn]
  refine ⟨mul_comm _ _, variance_mk_zero n c, fun ε hε => ?_⟩
  rw [currentErrorEstimate, variance_mk_zero n c]
  simp [Real.sqrt_zero, le_of_lt hε]

/-- Witness for C5: the constant integrand 1 over the unit square with 2
samples, evaluated concretely. -/
theorem c5_witness :
    estimate (domainVolume [((0 : ℚ), 1), (0, 1)]) (accumOf (List.replicate 2 1)) =
      1 * domainVolume [((0 : ℚ), 1), (0, 1)] ∧
    (accumOf (List.replicate 2 (1 : ℚ))).variance = 0 ∧
    currentErrorEstimate (domainVolume [((0 : ℚ), 1), (0, 1)])
      (accumOf (List.replicate 2 1)) ≤ (1 / 1000000 : ℝ) := by
  obtain ⟨h1, h2, h3⟩ := c5_constant_integrand [((0 : ℚ), 1), (0, 1)] 1 2 (by norm_num)
  exact ⟨h1, h2, h3 (1 / 1000000) (by norm_num)⟩

theorem sum_map_div (l : List ℚ) (c : ℚ) : (l.map (fun x => x / c)).sum = l.sum / c := by
  induction l with
  | nil => simp
  | cons x xs ih => simp [ih, add_div]

theorem oddSum (n : ℕ) :
    ((List.range n).map (fun (i : ℕ) => 2 * (i : ℚ) + 1)).sum = (n : ℚ) ^ 2 := by
  induction n with
  | zero => simp
  | succ m ih =>
      rw [List.range_succ, List.map_append, List.sum_append, ih]
      push_cast
      simp only [List.map_cons, List.map_nil, List.sum_cons, List.sum_nil]
      ring

theorem oddSqSum (n : ℕ) :
    ((List.range n).map (fun (i : ℕ) => (2 * (i : ℚ) + 1) ^ 2)).sum =
      (n : ℚ) * (4 * (n : ℚ) ^ 2 - 1) / 3 := by
  induction n with
  | zero => simp
  | succ m ih =>
      rw [List.range_succ, List.map_append, List.sum_append, ih]
      push_cast
      simp only [List.map_cons, List.map_nil, List.sum_cons, List.sum_nil]
      ring

theorem equiSamples_sum (n : ℕ) : (equiSamples n).sum = (n : ℚ) / 2 := by
  unfold equiSamples
  have hc : (fun i : ℕ => (2 * (i : ℚ) + 1) / (2 * (n : ℚ))) =
      (fun x : ℚ => x / (2 * (n : ℚ))) ∘ (fun i : ℕ => 2 * (i : ℚ) + 1) := rfl
  rw [hc, ← List.map_map, sum_map_div, oddSum]
  rcases Nat.eq_zero_or_pos n with h | h
  · subst h; simp
  · have hn : (n : ℚ) ≠ 0 := Nat.cast_ne_zero.mpr h.ne'
    field_simp
    ring

theorem equiSamples_sumSq (n : ℕ) :
    sumSq (equiSamples n) = (4 * (n : ℚ) ^ 2 - 1) / (12 * (n : ℚ)) := by
  unfold sumSq equiSamples
  rw [List.map_map]
  have hc : ((fun x : ℚ => x ^ 2) ∘ fun i : ℕ => (2 * (i : ℚ) + 1) / (2 * (n : ℚ))) =
      (fun x : ℚ => x / (2 * (n : ℚ)) ^ 2) ∘ (fun i : ℕ => (2 * (i : ℚ) + 1) ^ 2) := by
    funext i
    simp [div_pow]
  rw [hc, ← List.map_map, sum_map_div, oddSqSum]
  rcases Nat.eq_zero_or_pos n with h | h
  · subst h; simp
  · have hn : (n : ℚ) ≠ 0 := Nat.cast_ne_zero.mpr h.ne'
    field_simp
    ring

theorem accumOf_equiSamples (n : ℕ) (hn : 1 ≤ n) :
    accumOf (equiSamples n) = ⟨n, 1 / 2, ((n : ℚ) ^ 2 - 1) / (12 * (n : ℚ))⟩ := by
  have hq : (n : ℚ) ≠ 0 := Nat.cast_ne_zero.mpr (by omega)
  rw [accumOf_eq, equiSamples_sum, equiSamples_sumSq]
  have hlen : (equiSamples n).length = n := by simp [equiSamples]
  rw [hlen]
  ext
  · rfl
  · show (n : ℚ) / 2 / (n : ℚ) = 1 / 2
    field_simp
    ring
  · show (4 * (n : ℚ) ^ 2 - 1) / (12 * (n : ℚ)) - ((n : ℚ) / 2) ^ 2 / (n : ℚ) =
      ((n : ℚ) ^ 2 - 1) / (12 * (n : ℚ))
    field_simp
    ring

theorem variance_equiSamples (n : ℕ) (hn : 2 ≤ n) :
    (accumOf (equiSamples n)).variance = ((n : ℚ) + 1) / (12 * (n : ℚ)) := by
  rw [accumOf_equiSamples n (by omega)]
  unfold Accum.variance
  have hq : (n : ℚ) ≠ 0 := Nat.cast_ne_zero.mpr (by omega)
  have h1 : (n : ℚ) - 1 ≠ 0 := by
    have : (2 : ℚ) ≤ (n : ℚ) := by exact_mod_cast hn
    intro hcon
    nlinarith
  simp only [hn, if_true]
  show ((n : ℚ) ^ 2 - 1) / (12 * (n : ℚ)) / ((n : ℚ) - 1) = ((n : ℚ) + 1) / (12 * (n : ℚ))
  field_simp
  ring

/-- C6: for the integrand f(x) = x on [0,1], evaluated on the equidistributed
sample family, the resolved estimate is exactly 0.5 and the sample variance
equals (n+1)/(12n), which is within 5 percent of 1/12 for every sample count
of at least 20 and converges to 1/12 as the sample count grows. -/
theorem c6_linear_integrand :
    (∀ n : ℕ, 20 ≤ n →
      estimate 1 (accumOf (equiSamples n)) = 1 / 2 ∧
      (accumOf (equiSamples n)).variance = ((n : ℚ) + 1) / (12 * (n : ℚ)) ∧
      |(accumOf (equiSamples n)).variance - 1 / 12| ≤ (5 / 100) * (1 / 12)) ∧
    Filter.Tendsto (fun n : ℕ => ((accumOf (equiSamples n)).variance : ℝ))
      Filter.atTop (nhds (1 / 12)) := by
  constructor
  · intro n hn
    have hq : (n : ℚ) ≠ 0 := Nat.cast_ne_zero.mpr (by omega)
    have hq20 : (20 : ℚ) ≤ (n : ℚ) := by exact_mod_cast hn
    refine ⟨?_, variance_equiSamples n (by omega), ?_⟩
    · rw [estimate, accumOf_equiSamples n (by omega)]
      norm_num
    · rw [variance_equiSamples n (by omega)]
      have he : ((n : ℚ) + 1) / (12 * (n : ℚ)) - 1 / 12 = 1 / (12 * (n : ℚ)) := by
        field_simp
        ring
      have h240 : (5 / 100 : ℚ) * (1 / 12) = 1 / 240 := by norm_num
      rw [he, abs_of_nonneg (by positivity), h240,
        div_le_div_iff₀ (by positivity) (by norm_num)]
      nlinarith
  · have hbase : Filter.Tendsto (fun n : ℕ => (1 + ((n : ℝ))⁻¹) * (1 / 12))
        Filter.atTop (nhds (1 / 12)) := by
      have h1 : Filter.Tendsto (fun n : ℕ => 1 + ((n : ℝ))⁻¹) Filter.atTop (nhds 1) := by
        have := tendsto_inverse_atTop_nhds_zero_nat
        have h2 := Filter.Tendsto.const_add (1 : ℝ) this
        simpa using h2
      have h3 := h1.mul_const (1 / 12 : ℝ)
      simpa using h3
    refine Filter.Tendsto.congr' ?_ hbase
    rw [Filter.eventuallyEq_iff_exists_mem]
    refine ⟨{n : ℕ | 2 ≤ n}, Filter.mem_atTop 2, fun n hn => ?_⟩
    have hn2 : 2 ≤ n := hn
    have hq : (n : ℝ) ≠ 0 := Nat.cast_ne_zero.mpr (by omega)
    show (1 + ((n : ℝ))⁻¹) * (1 / 12) = ((accumOf (equiSamples n)).variance : ℝ)
    rw [variance_equiSamples n hn2]
    push_cast
    rw [eq_div_iff (by positivity : (12 : ℝ) * (n : ℝ) ≠ 0)]
    have hx : (1 + ((n : ℝ))⁻¹) * (1 / 12) * (12 * (n : ℝ)) =
        (n : ℝ) + ((n : ℝ))⁻¹ * (n : ℝ) := by ring
    rw [hx, inv_mul_cancel₀ hq]

/-- Witness for C6 at the concrete sample count 20. -/
theorem c6_witness :
    estimate 1 (accumOf (equiSamples 20)) = 1 / 2 ∧
    (accumOf (equiSamples 20)).variance = ((20 : ℚ) + 1) / (12 * (20 : ℚ)) ∧
    |(accumOf (equiSamples 20)).variance - 1 / 12| ≤ (5 / 100) * (1 / 12) :=
  c6_linear_integrand.1 20 (by norm_num)

/-- C7: the Accumulator merge operation is associative and commutative, so for
every multiset of worker batch contributions the aggregated statistics are
independent of the interleaving order in which batches are merged.  In this
exact-arithmetic model the independence is exact; in the source's floating
types it holds up to rounding. -/
theorem c7_merge_commutative_associative_order_independent :
    (∀ a b : Accum, a.merge b = b.merge a) ∧
    (∀ a b c : Accum, (a.merge b).merge c = a.merge (b.merge c)) ∧
    (∀ l₁ l₂ : List Accum, l₁.Perm l₂ →
      l₁.foldr Accum.merge Accum.empty = l₂.foldr Accum.merge Accum.empty) :=
  ⟨Accum.merge_comm, Accum.merge_assoc, fun _ _ h => foldr_merge_perm h Accum.empty⟩

/-- Witness for C7 at a concrete interleaving: merging three concrete batch
accumulators in two different orders yields identical statistics. -/
theorem c7_witness :
    [Accum.single 1, Accum.single 2, Accum.single 3].foldr Accum.merge Accum.empty =
      [Accum.single 3, Accum.single 1, Accum.single 2].foldr Accum.merge Accum.empty :=
  c7_merge_commutative_associative_order_independent.2.2 _ _ (by decide)

theorem doneCheck_iff {vol target : ℚ} {a : Accum} (hvol : 0 ≤ vol) (ht : 0 ≤ target)
    (hv : 0 ≤ a.variance) :
    doneCheck vol target a = true ↔ currentErrorEstimate vol a ≤ (target : ℝ) := by
  unfold doneCheck currentErrorEstimate
  rw [decide_eq_true_eq]
  have hx : (0 : ℝ) ≤ (a.variance : ℝ) / (a.count : ℝ) :=
    div_nonneg (by exact_mod_cast hv) (by positivity)
  have hvr : (0 : ℝ) ≤ (vol : ℝ) := by exact_mod_cast hvol
  have htr : (0 : ℝ) ≤ (target : ℝ) := by exact_mod_cast ht
  have hL : (0 : ℝ) ≤ (vol : ℝ) * Real.sqrt ((a.variance : ℝ) / (a.count : ℝ)) :=
    mul_nonneg hvr (Real.sqrt_nonneg _)
  rw [← pow_le_pow_iff_left₀ hL htr (by norm_num : (2 : ℕ) ≠ 0), mul_pow,
    Real.sq_sqrt hx]
  constructor
  · intro h
    exact_mod_cast h
  · intro h
    exact_mod_cast h

theorem runLoop_cancel_immediate (batches : ℕ → List ℚ) (vol target : ℚ)
    (fuel k : ℕ) (acc : Accum) (hfuel : 0 < fuel) :
    runLoop batches vol target (fun _ => true) fuel k acc =
      some ⟨acc.merge (accumOf (batches k)), false⟩ := by
  cases fuel with
  | zero => omega
  | succ m => simp [runLoop]

theorem runLoop_completed_doneCheck (batches : ℕ → List ℚ) (vol target : ℚ)
    (cancelFlag : ℕ → Bool) :
    ∀ (fuel k : ℕ) (acc : Accum) (r : RunResult), 0 ≤ acc.m2 →
      runLoop batches vol target cancelFlag fuel k acc = some r →
      r.normalCompletion = true →
      doneCheck vol target r.acc = true ∧ 0 ≤ r.acc.m2 := by
  intro fuel
  induction fuel with
  | zero =>
      intro k acc r _ hrun _
      simp [runLoop] at hrun
  | succ m ih =>
      intro k acc r h hrun hnc
      simp only [runLoop] at hrun
      have hm2 : 0 ≤ (acc.merge (accumOf (batches k))).m2 :=
        Accum.m2_merge_nonneg h (accumOf_m2_nonneg _)
      by_cases hc : cancelFlag k = true
      · rw [if_pos hc] at hrun
        injection hrun with hr
        rw [← hr] at hnc
        simp at hnc
      · rw [if_neg hc] at hrun
        by_cases hd : doneCheck vol target (acc.merge (accumOf (batches k))) = true
        · rw [if_pos hd] at hrun
          injection hrun with hr
          rw [← hr]
          exact ⟨hd, hm2⟩
        · rw [if_neg hd] at hrun
          exact ih (k + 1) _ r hm2 hrun hnc

/-- C4: a `cancel()` issued immediately after `integrate()` makes the run stop
right after its first in-flight batch — in bounded time, independent of the
fuel — and the pending handle still resolves with the (finite, rational)
statistics accumulated so far rather than with a failure; afterwards
`update_target_error` on the completed controller succeeds, and any
subsequent run that completes normally has its final error estimate within
the requested tolerance. -/
theorem c4_cancel_resolves_and_restart_converges :
    (∀ (batches : ℕ → List ℚ) (vol target : ℚ) (fuel k : ℕ) (acc : Accum),
      0 < fuel →
      runLoop batches vol target (fun _ => true) fuel k acc =
        some ⟨acc.merge (accumOf (batches k)), false⟩) ∧
    (∀ (c : Controller) (t : ℚ), c.state = CtrlState.completed →
      updateTargetError c t = .ok ⟨c.bounds, t, c.state⟩) ∧
    (∀ (batches : ℕ → List ℚ) (vol target : ℚ) (cancelFlag : ℕ → Bool)
        (fuel k : ℕ) (acc : Accum) (r : RunResult),
      0 ≤ vol → 0 ≤ target → 0 ≤ acc.m2 →
      runLoop batches vol target cancelFlag fuel k acc = some r →
      r.normalCompletion = true →
      currentErrorEstimate vol r.acc ≤ (target : ℝ)) := by
  refine ⟨runLoop_cancel_immediate, ?_, ?_⟩
  · intro c t hc
    rw [updateTargetError, hc]
  · intro batches vol target cancelFlag fuel k acc r hvol ht hm2 hrun hnc
    obtain ⟨hd, hm2r⟩ :=
      runLoop_completed_doneCheck batches vol target cancelFlag fuel k acc r hm2 hrun hnc
    exact (doneCheck_iff hvol ht (Accum.variance_nonneg hm2r)).mp hd

/-- Witness for C4: a concrete cancelled run resolves after one batch; a
concrete completed controller accepts a new target error; and a concrete
normally-completed run meets its tolerance. -/
theorem c4_witness :
    runLoop (fun _ => [1, 1]) 1 (1 / 100) (fun _ => true) 5 0 Accum.empty =
      some ⟨Accum.empty.merge (accumOf ((fun _ : ℕ => [(1 : ℚ), 1]) 0)), false⟩ ∧
    updateTargetError ⟨[], 1 / 20, CtrlState.completed⟩ (1 / 100) =
      .ok ⟨[], 1 / 100, CtrlState.completed⟩ ∧
    currentErrorEstimate 1
      (RunResult.mk (Accum.mk 2 1 0) true).acc ≤ ((1 / 100 : ℚ) : ℝ) := by
  refine ⟨c4_cancel_resolves_and_restart_converges.1 _ 1 (1 / 100) 5 0 Accum.empty
      (by norm_num),
    c4_cancel_resolves_and_restart_converges.2.1 ⟨[], 1 / 20, CtrlState.completed⟩
      (1 / 100) rfl, ?_⟩
  refine c4_cancel_resolves_and_restart_converges.2.2 (fun _ => [1, 1]) 1 (1 / 100)
    (fun _ => false) 1 0 Accum.empty ⟨Accum.mk 2 1 0, true⟩
    (by norm_num) (by norm_num) (le_refl 0) ?_ rfl
  have h2 : accumOf [(1 : ℚ), 1] = ⟨2, 1, 0⟩ := by
    have := accumOf_replicate 2 1 (by norm_num)
    simpa using this
  simp only [runLoop, h2]
  norm_num [Accum.merge, Accum.empty, doneCheck, Accum.variance]

theorem Accum.empty_merge (a : Accum) (h : 1 ≤ a.count) : Accum.empty.merge a = a := by
  have hq : (a.count : ℚ) ≠ 0 := Nat.cast_ne_zero.mpr (by omega)
  rcases a with ⟨n, m, q⟩
  ext
  · simp [Accum.merge, Accum.empty]
  · show ((0 : ℚ) * 0 + (n : ℚ) * m) / ((0 : ℚ) + (n : ℚ)) = m
    simp only [Nat.cast_zero] at hq ⊢
    field_simp
  · show (0 : ℚ) + q + (m - 0) ^ 2 * (0 : ℚ) * (n : ℚ) / ((0 : ℚ) + (n : ℚ)) = q
    simp

/-- C10: with the modelled batch size of 2048, a run on a constant integrand
over the unit square with target error 0.0001 completes normally on its very
first termination check — the observed variance is zero from the first batch
— and `calls()` still reports the full first batch, strictly more than 1000
samples. -/
theorem c10_minimum_sample_count (c : ℚ) (fuel k : ℕ) (hfuel : 0 < fuel) :
    runLoop (fun _ => List.replicate batchSize c) 1 (1 / 10000) (fun _ => false)
        fuel k Accum.empty =
      some ⟨⟨batchSize, c, 0⟩, true⟩ ∧
    1000 < (Accum.mk batchSize c 0).calls := by
  have hrep : accumOf (List.replicate batchSize c) = ⟨batchSize, c, 0⟩ :=
    accumOf_replicate batchSize c (by norm_num [batchSize])
  have hmerge : Accum.empty.merge (Accum.mk batchSize c 0) = ⟨batchSize, c, 0⟩ :=
    Accum.empty_merge _ (by norm_num [batchSize])
  have hdone : doneCheck 1 (1 / 10000) ⟨batchSize, c, 0⟩ = true := by
    rw [doneCheck, decide_eq_true_eq]
    have hv : (Accum.mk batchSize c 0).variance = 0 := variance_mk_zero _ _
    rw [hv]
    norm_num
  cases fuel with
  | zero => omega
  | succ m =>
      constructor
      · simp only [runLoop, hrep, hmerge, hdone]
        simp
      · norm_num [Accum.calls, batchSize]

/-- Witness for C10 at the concrete constant 1 with fuel 1. -/
theorem c10_witness :
    runLoop (fun _ => List.replicate batchSize 1) 1 (1 / 10000) (fun _ => false)
        1 0 Accum.empty =
      some ⟨⟨batchSize, 1, 0⟩, true⟩ ∧
    1000 < (Accum.mk batchSize 1 0).calls :=
  c10_minimum_sample_count 1 1 0 (by norm_num)

theorem evalSamples_nan (g : List ℚ → Except String MVal)
    (hg : ∀ p, g p = .ok MVal.nan) :
    ∀ samples : List (List ℚ), samples ≠ [] → evalSamples g samples = .ok MVal.nan := by
  intro samples
  induction samples with
  | nil => intro h; exact absurd rfl h
  | cons p ps ih =>
      intro _
      cases hps : ps with
      | nil =>
          subst hps
          rw [evalSamples, hg p]
          simp [evalSamples, MVal.add]
      | cons q qs =>
          have ihq : evalSamples g (q :: qs) = Except.ok MVal.nan := by
            rw [← hps]
            exact ih (by simp [hps])
          rw [evalSamples, hg p, ihq]
          simp [MVal.add]

/-- C2: an integrand that evaluates `1/0` at every sampled point yields a
pending handle that resolves normally — not with a propagated failure — and
the final estimate is NaN, the singular value having propagated through the
accumulated mean. -/
theorem c2_division_by_zero_yields_nan (g : List ℚ → Except String MVal)
    (samples : List (List ℚ)) (vol : ℚ)
    (hg : ∀ p, g p = .ok ((MVal.fin 1).div (MVal.fin 0)))
    (hne : samples ≠ []) :
    integrateHandle g samples vol = .ok MVal.nan ∧ MVal.isNaN MVal.nan = true := by
  have h10 : (MVal.fin 1).div (MVal.fin 0) = MVal.nan := by simp [MVal.div]
  have hg2 : ∀ p, g p = .ok MVal.nan := fun p => by rw [hg p, h10]
  rw [integrateHandle, evalSamples_nan g hg2 samples hne]
  simp [MVal.div, MVal.mul, MVal.isNaN]

/-- Witness for C2: the integrand returning `1/0` on a single concrete sample
of the unit square. -/
theorem c2_witness :
    integrateHandle (fun _ => .ok ((MVal.fin 1).div (MVal.fin 0)))
        [[1 / 2, 1 / 2]] 1 = .ok MVal.nan ∧
    MVal.isNaN MVal.nan = true :=
  c2_division_by_zero_yields_nan _ _ 1 (fun _ => rfl) (by simp)

/-- C3: an integrand that raises a failure on some sampled point makes the
pending handle surface that failure instead of resolving with a numeric
value; the first failing evaluation wins and the computation aborts. -/
theorem c3_integrand_failure_propagates (g : List ℚ → Except String MVal)
    (pre post : List (List ℚ)) (p : List ℚ) (e : String) (vol : ℚ)
    (hpre : ∀ q ∈ pre, ∃ v, g q = .ok v)
    (hp : g p = .error e) :
    integrateHandle g (pre ++ p :: post) vol = .error e ∧
    ∀ v, integrateHandle g (pre ++ p :: post) vol ≠ .ok v := by
  have heval : ∀ pre2 : List (List ℚ), (∀ q ∈ pre2, ∃ v, g q = .ok v) →
      evalSamples g (pre2 ++ p :: post) = .error e := by
    intro pre2
    induction pre2 with
    | nil =>
        intro _
        rw [List.nil_append, evalSamples, hp]
    | cons q qs ih =>
        intro hq
        obtain ⟨v, hv⟩ := hq q (by simp)
        rw [List.cons_append, evalSamples, hv, ih (fun x hx => hq x (by simp [hx]))]
  have h := heval pre hpre
  rw [integrateHandle, h]
  exact ⟨rfl, fun v hv => by simp at hv⟩

/-- Witness for C3: a concrete integrand failing on the sampled sub-region
around x = 3/4, between two successful evaluations. -/
theorem c3_witness :
    integrateHandle
        (fun q => if q = [(3 : ℚ) / 4] then .error "domain failure" else .ok (.fin 1))
        ([[(1 : ℚ) / 4]] ++ [(3 : ℚ) / 4] :: [[(1 : ℚ) / 8]]) 1 =
      .error "domain failure" :=
  (c3_integrand_failure_propagates _ [[(1 : ℚ) / 4]] [[(1 : ℚ) / 8]] [(3 : ℚ) / 4]
    "domain failure" 1
    (by intro q hq; simp at hq; subst hq; exact ⟨.fin 1, by norm_num⟩)
    (by norm_num)).1

/-- C8: construction fails synchronously with InvalidBoundsError whenever some
dimension's bounds are malformed (low ≥ high with both finite, or low equal to
high generally); with well-formed bounds it fails with InvalidToleranceError
whenever the target error is not strictly positive, and succeeds — yielding an
Idle controller holding the bounds and tolerance — whenever the target error
is positive.  The model checks bounds before the tolerance, which the spec
leaves unordered. -/
theorem c8_construction_validation :
    (∀ (bounds : List (QBnd × QBnd)) (ε : ℚ),
      (∃ p ∈ bounds, (∃ x y : ℚ, p = (QBnd.val x, QBnd.val y) ∧ y ≤ x) ∨ p.1 = p.2) →
      construct bounds ε = .error .invalidBoundsError) ∧
    (∀ (bounds : List (QBnd × QBnd)) (ε : ℚ),
      (∀ p ∈ bounds, validPair p.1 p.2 = true) → ε ≤ 0 →
      construct bounds ε = .error .invalidToleranceError) ∧
    (∀ (bounds : List (QBnd × QBnd)) (ε : ℚ),
      (∀ p ∈ bounds, validPair p.1 p.2 = true) → 0 < ε →
      construct bounds ε = .ok ⟨bounds, ε, .idle⟩) := by
  refine ⟨?_, ?_, ?_⟩
  · rintro bounds ε ⟨p, hmem, hbad⟩
    have hvp : validPair p.1 p.2 = false := by
      rcases hbad with ⟨x, y, rfl, hxy⟩ | heq
      · simp [validPair, not_lt.mpr hxy]
      · rcases p with ⟨p1, p2⟩
        simp only at heq
        subst heq
        cases p1 <;> simp [validPair]
    have hany : bounds.any (fun p => !validPair p.1 p.2) = true := by
      rw [List.any_eq_true]
      exact ⟨p, hmem, by rw [hvp]; rfl⟩
    rw [construct, if_pos hany]
  · intro bounds ε hall hε
    have hany : ¬ bounds.any (fun p => !validPair p.1 p.2) = true := by
      rw [List.any_eq_true]
      rintro ⟨p, hmem, hbad⟩
      rw [hall p hmem] at hbad
      simp at hbad
    rw [construct, if_neg hany, if_pos hε]
  · intro bounds ε hall hε
    have hany : ¬ bounds.any (fun p => !validPair p.1 p.2) = true := by
      rw [List.any_eq_true]
      rintro ⟨p, hmem, hbad⟩
      rw [hall p hmem] at hbad
      simp at hbad
    rw [construct, if_neg hany, if_neg (not_le.mpr hε)]

/-- Witness for C8: a reversed finite pair is rejected, a non-positive
tolerance is rejected, and a well-formed configuration is accepted. -/
theorem c8_witness :
    construct [(QBnd.val 1, QBnd.val 0)] 1 = .error .invalidBoundsError ∧
    construct [(QBnd.val 0, QBnd.posInf)] 0 = .error .invalidToleranceError ∧
    construct [(QBnd.val 0, QBnd.val 1), (QBnd.negInf, QBnd.posInf)] (1 / 1000) =
      .ok ⟨[(QBnd.val 0, QBnd.val 1), (QBnd.negInf, QBnd.posInf)], 1 / 1000, .idle⟩ :=
  ⟨c8_construction_validation.1 _ 1
      ⟨(QBnd.val 1, QBnd.val 0), by simp, Or.inl ⟨1, 0, rfl, by norm_num⟩⟩,
    c8_construction_validation.2.1 _ 0
      (by intro p hp; simp at hp; subst hp; rfl) (by norm_num),
    c8_construction_validation.2.2 _ (1 / 1000)
      (by
        intro p hp
        simp at hp
        rcases hp with h | h <;> subst h <;> simp [validPair])
      (by norm_num)⟩

/-- C9: `update_target_error` succeeds — recording the new tolerance — exactly
when the controller is not running (Idle or Completed), and fails with
StateError when invoked on the Running controller produced by an active
`integrate()`. -/
theorem c9_update_target_error_state_contract :
    (∀ (c : Controller) (t : ℚ), c.state = .idle ∨ c.state = .completed →
      updateTargetError c t = .ok ⟨c.bounds, t, c.state⟩) ∧
    (∀ (c : Controller) (t : ℚ), c.state = .running →
      updateTargetError c t = .error .stateError) ∧
    (∀ (c c' : Controller) (t : ℚ), startIntegrate c = .ok c' →
      c'.state = .running ∧ updateTargetError c' t = .error .stateError) := by
  refine ⟨?_, ?_, ?_⟩
  · intro c t hc
    rcases hc with h | h <;> rw [updateTargetError, h]
  · intro c t hc
    rw [updateTargetError, hc]
  · intro c c' t hc
    rcases c with ⟨b, e, s⟩
    cases s <;> simp [startIntegrate] at hc <;>
      [skip; skip] <;> rw [← hc] <;> exact ⟨rfl, rfl⟩

/-- Witness for C9: the concrete Idle controller accepts a tolerance update,
and after `integrate()` the same update fails with StateError. -/
theorem c9_witness :
    updateTargetError ⟨[], 1, CtrlState.idle⟩ (1 / 2) =
      .ok ⟨[], 1 / 2, CtrlState.idle⟩ ∧
    updateTargetError ⟨[], 1, CtrlState.running⟩ (1 / 2) = .error .stateError :=
  ⟨c9_update_target_error_state_contract.1 ⟨[], 1, CtrlState.idle⟩ (1 / 2) (Or.inl rfl),
    c9_update_target_error_state_contract.2.1 ⟨[], 1, CtrlState.running⟩ (1 / 2) rfl⟩

theorem hasDerivAt_ratio (u : ℝ) (hu : u ≠ 1) :
    HasDerivAt (fun v : ℝ => v / (1 - v)) (1 / (1 - u) ^ 2) u := by
  have hne : 1 - u ≠ 0 := sub_ne_zero.mpr (Ne.symm hu)
  have h1 : HasDerivAt (fun v : ℝ => v) 1 u := hasDerivAt_id u
  have h2 : HasDerivAt (fun v : ℝ => 1 - v) (0 - 1) u :=
    (hasDerivAt_const u 1).sub (hasDerivAt_id u)
  have h3 := h1.div h2 hne
  convert h3 using 1
  field_simp

theorem upperMap_eq (low : ℝ) :
    (substitutionFor (RBnd.val low) RBnd.posInf).forwardMap =
      fun u : ℝ => low + u / (1 - u) := rfl

theorem upperJacobian_eq (low : ℝ) :
    (substitutionFor (RBnd.val low) RBnd.posInf).jacobian =
      fun u : ℝ => 1 / (1 - u) ^ 2 := rfl

theorem hasDerivAt_upperMap (low u : ℝ) (hu : u ≠ 1) :
    HasDerivAt ((substitutionFor (RBnd.val low) RBnd.posInf).forwardMap)
      ((substitutionFor (RBnd.val low) RBnd.posInf).jacobian u) u := by
  rw [upperMap_eq, upperJacobian_eq]
  exact (hasDerivAt_ratio u hu).const_add low

theorem transformed_upper_eq (u : ℝ) :
    transformedIntegrand cauchyIntegrand (substitutionFor (RBnd.val 0) RBnd.posInf) u =
      1 / (1 + (u / (1 - u)) ^ 2) * (1 / (1 - u) ^ 2) := by
  show cauchyIntegrand (0 + u / (1 - u)) * (1 / (1 - u) ^ 2) =
    1 / (1 + (u / (1 - u)) ^ 2) * (1 / (1 - u) ^ 2)
  unfold cauchyIntegrand
  ring

theorem hasDerivAt_arctanUpper (u : ℝ) (hu : u < 1) :
    HasDerivAt (fun v : ℝ => Real.arctan (v / (1 - v)))
      (transformedIntegrand cauchyIntegrand (substitutionFor (RBnd.val 0) RBnd.posInf) u)
      u := by
  have hdiv := hasDerivAt_ratio u (ne_of_lt hu)
  have harc := (Real.hasDerivAt_arctan (u / (1 - u))).comp u hdiv
  have heq : transformedIntegrand cauchyIntegrand
      (substitutionFor (RBnd.val 0) RBnd.posInf) u =
      1 / (1 + (u / (1 - u)) ^ 2) * (1 / (1 - u) ^ 2) := transformed_upper_eq u
  rw [heq]
  exact harc

theorem continuous_cauchyIntegrand : Continuous cauchyIntegrand := by
  unfold cauchyIntegrand
  exact continuous_const.div ((continuous_pow 2).add continuous_const)
    (fun x => by positivity)

theorem continuousOn_transformed_upper :
    ContinuousOn
      (transformedIntegrand cauchyIntegrand (substitutionFor (RBnd.val 0) RBnd.posInf))
      (Set.Iio (1 : ℝ)) := by
  show ContinuousOn
    (fun u : ℝ => cauchyIntegrand (0 + u / (1 - u)) * (1 / (1 - u) ^ 2)) (Set.Iio 1)
  have hne : ∀ x ∈ Set.Iio (1 : ℝ), 1 - x ≠ 0 := fun x hx =>
    sub_ne_zero.mpr (ne_of_gt hx)
  apply ContinuousOn.mul
  · apply continuous_cauchyIntegrand.comp_continuousOn
    exact continuousOn_const.add (continuousOn_id.div
      (continuous_const.sub continuous_id).continuousOn hne)
  · exact continuousOn_const.div
      ((continuous_const.sub continuous_id).pow 2).continuousOn
      (fun x hx => pow_ne_zero 2 (hne x hx))

theorem integral_transformed_upper (b : ℝ) (hb : b < 1) :
    (∫ u in (0 : ℝ)..b,
        transformedIntegrand cauchyIntegrand (substitutionFor (RBnd.val 0) RBnd.posInf) u) =
      Real.arctan (b / (1 - b)) := by
  have hIcc : Set.uIcc (0 : ℝ) b ⊆ Set.Iio (1 : ℝ) := by
    intro x hx
    rcases Set.mem_uIcc.mp hx with ⟨_, h2⟩ | ⟨_, h2⟩ <;> simp only [Set.mem_Iio] <;> linarith
  have hderiv : ∀ x ∈ Set.uIcc (0 : ℝ) b,
      HasDerivAt (fun v : ℝ => Real.arctan (v / (1 - v)))
        (transformedIntegrand cauchyIntegrand (substitutionFor (RBnd.val 0) RBnd.posInf) x)
        x := fun x hx => hasDerivAt_arctanUpper x (hIcc hx)
  have hint : IntervalIntegrable
      (transformedIntegrand cauchyIntegrand (substitutionFor (RBnd.val 0) RBnd.posInf))
      MeasureTheory.volume 0 b :=
    (continuousOn_transformed_upper.mono hIcc).intervalIntegrable
  rw [intervalIntegral.integral_eq_sub_of_hasDerivAt hderiv hint]
  norm_num

theorem tendsto_ratio_atTop :
    Filter.Tendsto (fun b : ℝ => b / (1 - b)) (nhdsWithin 1 (Set.Iio 1)) Filter.atTop := by
  have h1 : Filter.Tendsto (fun b : ℝ => b) (nhdsWithin 1 (Set.Iio 1)) (nhds 1) :=
    (continuous_id.tendsto (1 : ℝ)).mono_left nhdsWithin_le_nhds
  have h2 : Filter.Tendsto (fun b : ℝ => 1 - b) (nhdsWithin 1 (Set.Iio 1))
      (nhdsWithin 0 (Set.Ioi 0)) := by
    rw [tendsto_nhdsWithin_iff]
    constructor
    · have hc : Continuous fun b : ℝ => 1 - b := continuous_const.sub continuous_id
      have h : Filter.Tendsto (fun b : ℝ => 1 - b) (nhds 1) (nhds 0) := by
        have h0 := hc.tendsto (1 : ℝ)
        simpa using h0
      exact h.mono_left nhdsWithin_le_nhds
    · exact eventually_nhdsWithin_of_forall fun b hb => Set.mem_Ioi.mpr (by
        simp only [Set.mem_Iio] at hb
        linarith)
  have h3 : Filter.Tendsto (fun b : ℝ => (1 - b)⁻¹) (nhdsWithin 1 (Set.Iio 1))
      Filter.atTop := tendsto_inv_zero_atTop.comp h2
  have h4 := Filter.Tendsto.mul_atTop one_pos h1 h3
  exact h4.congr fun b => (div_eq_mul_inv b (1 - b)).symm

theorem tendsto_integral_upper :
    Filter.Tendsto (fun b : ℝ => ∫ u in (0 : ℝ)..b,
        transformedIntegrand cauchyIntegrand (substitutionFor (RBnd.val 0) RBnd.posInf) u)
      (nhdsWithin 1 (Set.Iio 1)) (nhds (Real.pi / 2)) := by
  have harc : Filter.Tendsto (fun b : ℝ => Real.arctan (b / (1 - b)))
      (nhdsWithin 1 (Set.Iio 1)) (nhds (Real.pi / 2)) :=
    (Real.tendsto_arctan_atTop.mono_right nhdsWithin_le_nhds).comp tendsto_ratio_atTop
  refine harc.congr' ?_
  exact eventually_nhdsWithin_of_forall fun b hb =>
    (integral_transformed_upper b (Set.mem_Iio.mp hb)).symm

theorem transformed_lower_eq_upper (u : ℝ) :
    transformedIntegrand cauchyIntegrand (substitutionFor RBnd.negInf (RBnd.val 0)) u =
      transformedIntegrand cauchyIntegrand (substitutionFor (RBnd.val 0) RBnd.posInf) u := by
  show cauchyIntegrand (0 - u / (1 - u)) * (1 / (1 - u) ^ 2) =
    cauchyIntegrand (0 + u / (1 - u)) * (1 / (1 - u) ^ 2)
  unfold cauchyIntegrand
  ring

theorem tendsto_integral_lower :
    Filter.Tendsto (fun b : ℝ => ∫ u in (0 : ℝ)..b,
        transformedIntegrand cauchyIntegrand (substitutionFor RBnd.negInf (RBnd.val 0)) u)
      (nhdsWithin 1 (Set.Iio 1)) (nhds (Real.pi / 2)) := by
  have heq : (fun b : ℝ => ∫ u in (0 : ℝ)..b,
      transformedIntegrand cauchyIntegrand (substitutionFor RBnd.negInf (RBnd.val 0)) u) =
      fun b : ℝ => ∫ u in (0 : ℝ)..b,
      transformedIntegrand cauchyIntegrand (substitutionFor (RBnd.val 0) RBnd.posInf) u := by
    funext b
    exact intervalIntegral.integral_congr fun u _ => transformed_lower_eq_upper u
  rw [heq]
  exact tendsto_integral_upper

theorem hasDerivAt_doubleMap (u : ℝ) (h0 : u ≠ 0) (h1 : u ≠ 1) :
    HasDerivAt (fun v : ℝ => (2 * v - 1) / (v * (1 - v)))
      ((2 * u ^ 2 - 2 * u + 1) / (u ^ 2 * (1 - u) ^ 2)) u := by
  have h1u : 1 - u ≠ 0 := sub_ne_zero.mpr (Ne.symm h1)
  have hden : u * (1 - u) ≠ 0 := mul_ne_zero h0 h1u
  have idd : HasDerivAt (fun v : ℝ => v) 1 u := hasDerivAt_id u
  have hnum : HasDerivAt (fun v : ℝ => 2 * v - 1) (2 * 1 - 0) u :=
    (idd.const_mul 2).sub (hasDerivAt_const u 1)
  have hdenom : HasDerivAt (fun v : ℝ => v * (1 - v)) (1 * (1 - u) + u * (0 - 1)) u :=
    idd.mul ((hasDerivAt_const u 1).sub idd)
  have hd := hnum.div hdenom hden
  convert hd using 1
  field_simp
  ring

theorem transformed_double_eq (u : ℝ) :
    transformedIntegrand cauchyIntegrand (substitutionFor RBnd.negInf RBnd.posInf) u =
      1 / (1 + ((2 * u - 1) / (u * (1 - u))) ^ 2) *
        ((2 * u ^ 2 - 2 * u + 1) / (u ^ 2 * (1 - u) ^ 2)) := by
  show cauchyIntegrand ((2 * u - 1) / (u * (1 - u))) *
      ((2 * u ^ 2 - 2 * u + 1) / (u ^ 2 * (1 - u) ^ 2)) =
    1 / (1 + ((2 * u - 1) / (u * (1 - u))) ^ 2) *
      ((2 * u ^ 2 - 2 * u + 1) / (u ^ 2 * (1 - u) ^ 2))
  unfold cauchyIntegrand
  ring

theorem hasDerivAt_arctanDouble (u : ℝ) (h0 : u ≠ 0) (h1 : u ≠ 1) :
    HasDerivAt (fun v : ℝ => Real.arctan ((2 * v - 1) / (v * (1 - v))))
      (transformedIntegrand cauchyIntegrand (substitutionFor RBnd.negInf RBnd.posInf) u)
      u := by
  have hm := hasDerivAt_doubleMap u h0 h1
  have harc := (Real.hasDerivAt_arctan ((2 * u - 1) / (u * (1 - u)))).comp u hm
  rw [transformed_double_eq]
  exact harc

theorem continuousOn_transformed_double :
    ContinuousOn
      (transformedIntegrand cauchyIntegrand (substitutionFor RBnd.negInf RBnd.posInf))
      (Set.Ioo (0 : ℝ) 1) := by
  show ContinuousOn (fun u : ℝ => cauchyIntegrand ((2 * u - 1) / (u * (1 - u))) *
      ((2 * u ^ 2 - 2 * u + 1) / (u ^ 2 * (1 - u) ^ 2))) (Set.Ioo 0 1)
  have hne : ∀ x ∈ Set.Ioo (0 : ℝ) 1, x * (1 - x) ≠ 0 := fun x hx =>
    mul_ne_zero hx.1.ne' (sub_ne_zero.mpr hx.2.ne')
  apply ContinuousOn.mul
  · apply continuous_cauchyIntegrand.comp_continuousOn
    exact ((continuous_const.mul continuous_id).sub continuous_const).continuousOn.div
      (continuous_id.mul (continuous_const.sub continuous_id)).continuousOn hne
  · exact (((continuous_const.mul (continuous_pow 2)).sub
        (continuous_const.mul continuous_id)).add continuous_const).continuousOn.div
      ((continuous_pow 2).mul ((continuous_const.sub continuous_id).pow 2)).continuousOn
      (fun x hx => mul_ne_zero (pow_ne_zero 2 hx.1.ne')
        (pow_ne_zero 2 (sub_ne_zero.mpr hx.2.ne')))

theorem integral_transformed_double (a b : ℝ) (ha : a ∈ Set.Ioo (0 : ℝ) 1)
    (hb : b ∈ Set.Ioo (0 : ℝ) 1) :
    (∫ u in a..b,
        transformedIntegrand cauchyIntegrand (substitutionFor RBnd.negInf RBnd.posInf) u) =
      Real.arctan ((2 * b - 1) / (b * (1 - b))) -
        Real.arctan ((2 * a - 1) / (a * (1 - a))) := by
  have hsub : Set.uIcc a b ⊆ Set.Ioo (0 : ℝ) 1 :=
    Set.ordConnected_Ioo.uIcc_subset ha hb
  have hderiv : ∀ x ∈ Set.uIcc a b,
      HasDerivAt (fun v : ℝ => Real.arctan ((2 * v - 1) / (v * (1 - v))))
        (transformedIntegrand cauchyIntegrand (substitutionFor RBnd.negInf RBnd.posInf) x)
        x := fun x hx =>
    hasDerivAt_arctanDouble x (hsub hx).1.ne' (hsub hx).2.ne
  have hint : IntervalIntegrable
      (transformedIntegrand cauchyIntegrand (substitutionFor RBnd.negInf RBnd.posInf))
      MeasureTheory.volume a b :=
    (continuousOn_transformed_double.mono hsub).intervalIntegrable
  rw [intervalIntegral.integral_eq_sub_of_hasDerivAt hderiv hint]

theorem tendsto_doubleMap_atBot :
    Filter.Tendsto (fun u : ℝ => (2 * u - 1) / (u * (1 - u)))
      (nhdsWithin 0 (Set.Ioi 0)) Filter.atBot := by
  have h1 : Filter.Tendsto (fun u : ℝ => 2 * u - 1) (nhdsWithin 0 (Set.Ioi 0))
      (nhds (-1)) := by
    have hc : Continuous fun u : ℝ => 2 * u - 1 := by
      exact (continuous_const.mul continuous_id).sub continuous_const
    have h0 := hc.tendsto (0 : ℝ)
    have h0e : Filter.Tendsto (fun u : ℝ => 2 * u - 1) (nhds 0) (nhds (-1)) := by
      simpa using h0
    exact h0e.mono_left nhdsWithin_le_nhds
  have h2 : Filter.Tendsto (fun u : ℝ => u * (1 - u)) (nhdsWithin 0 (Set.Ioi 0))
      (nhdsWithin 0 (Set.Ioi 0)) := by
    rw [tendsto_nhdsWithin_iff]
    constructor
    · have hc : Continuous fun u : ℝ => u * (1 - u) :=
        continuous_id.mul (continuous_const.sub continuous_id)
      have h0 := hc.tendsto (0 : ℝ)
      have h0e : Filter.Tendsto (fun u : ℝ => u * (1 - u)) (nhds 0) (nhds 0) := by
        simpa using h0
      exact h0e.mono_left nhdsWithin_le_nhds
    · have hlt : ∀ᶠ u in nhdsWithin (0 : ℝ) (Set.Ioi 0), u < 1 :=
        (eventually_lt_nhds (by norm_num : (0 : ℝ) < 1)).filter_mono nhdsWithin_le_nhds
      have hgt : ∀ᶠ u in nhdsWithin (0 : ℝ) (Set.Ioi 0), u ∈ Set.Ioi (0 : ℝ) :=
        self_mem_nhdsWithin
      filter_upwards [hlt, hgt] with u hu1 hu0
      exact Set.mem_Ioi.mpr (mul_pos (Set.mem_Ioi.mp hu0) (by linarith))
  have h3 : Filter.Tendsto (fun u : ℝ => (u * (1 - u))⁻¹)
      (nhdsWithin 0 (Set.Ioi 0)) Filter.atTop := tendsto_inv_zero_atTop.comp h2
  have h4 := Filter.Tendsto.neg_mul_atTop (by norm_num : (-1 : ℝ) < 0) h1 h3
  exact h4.congr fun u => (div_eq_mul_inv _ _).symm

theorem tendsto_doubleMap_atTop :
    Filter.Tendsto (fun u : ℝ => (2 * u - 1) / (u * (1 - u)))
      (nhdsWithin 1 (Set.Iio 1)) Filter.atTop := by
  have h1 : Filter.Tendsto (fun u : ℝ => 2 * u - 1) (nhdsWithin 1 (Set.Iio 1))
      (nhds 1) := by
    have hc : Continuous fun u : ℝ => 2 * u - 1 :=
      (continuous_const.mul continuous_id).sub continuous_const
    have h0 := hc.tendsto (1 : ℝ)
    have h0e : Filter.Tendsto (fun u : ℝ => 2 * u - 1) (nhds 1) (nhds 1) := by
      have hval : (2 : ℝ) - 1 = 1 := by norm_num
      simpa [hval] using h0
    exact h0e.mono_left nhdsWithin_le_nhds
  have h2 : Filter.Tendsto (fun u : ℝ => u * (1 - u)) (nhdsWithin 1 (Set.Iio 1))
      (nhdsWithin 0 (Set.Ioi 0)) := by
    rw [tendsto_nhdsWithin_iff]
    constructor
    · have hc : Continuous fun u : ℝ => u * (1 - u) :=
        continuous_id.mul (continuous_const.sub continuous_id)
      have h0 := hc.tendsto (1 : ℝ)
      have h0e : Filter.Tendsto (fun u : ℝ => u * (1 - u)) (nhds 1) (nhds 0) := by
        simpa using h0
      exact h0e.mono_left nhdsWithin_le_nhds
    · have hgt : ∀ᶠ u in nhdsWithin (1 : ℝ) (Set.Iio 1), 0 < u :=
        (eventually_gt_nhds (by norm_num : (0 : ℝ) < 1)).filter_mono nhdsWithin_le_nhds
      have hlt : ∀ᶠ u in nhdsWithin (1 : ℝ) (Set.Iio 1), u ∈ Set.Iio (1 : ℝ) :=
        self_mem_nhdsWithin
      filter_upwards [hgt, hlt] with u hu0 hu1
      exact Set.mem_Ioi.mpr (mul_pos hu0 (by
        simp only [Set.mem_Iio] at hu1
        linarith))
  have h3 : Filter.Tendsto (fun u : ℝ => (u * (1 - u))⁻¹)
      (nhdsWithin 1 (Set.Iio 1)) Filter.atTop := tendsto_inv_zero_atTop.comp h2
  have h4 := Filter.Tendsto.mul_atTop one_pos h1 h3
  exact h4.congr fun u => (div_eq_mul_inv _ _).symm

theorem tendsto_integral_double :
    Filter.Tendsto
      (fun p : ℝ × ℝ => ∫ u in p.1..p.2,
        transformedIntegrand cauchyIntegrand (substitutionFor RBnd.negInf RBnd.posInf) u)
      ((nhdsWithin 0 (Set.Ioi 0)) ×ˢ (nhdsWithin 1 (Set.Iio 1))) (nhds Real.pi) := by
  have hA : Filter.Tendsto (fun a : ℝ => Real.arctan ((2 * a - 1) / (a * (1 - a))))
      (nhdsWithin 0 (Set.Ioi 0)) (nhds (-(Real.pi / 2))) :=
    (Real.tendsto_arctan_atBot.mono_right nhdsWithin_le_nhds).comp tendsto_doubleMap_atBot
  have hB : Filter.Tendsto (fun b : ℝ => Real.arctan ((2 * b - 1) / (b * (1 - b))))
      (nhdsWithin 1 (Set.Iio 1)) (nhds (Real.pi / 2)) :=
    (Real.tendsto_arctan_atTop.mono_right nhdsWithin_le_nhds).comp tendsto_doubleMap_atTop
  have hsub := (hB.comp (Filter.tendsto_snd (f := nhdsWithin (0 : ℝ) (Set.Ioi 0)))).sub
    (hA.comp (Filter.tendsto_fst (g := nhdsWithin (1 : ℝ) (Set.Iio 1))))
  have hpi : Real.pi / 2 - -(Real.pi / 2) = Real.pi := by ring
  rw [hpi] at hsub
  refine hsub.congr' ?_
  have e1 : ∀ᶠ a in nhdsWithin (0 : ℝ) (Set.Ioi 0), a ∈ Set.Ioo (0 : ℝ) 1 := by
    have hlt : ∀ᶠ a in nhdsWithin (0 : ℝ) (Set.Iio 1), a < 1 := by
      exact (eventually_lt_nhds (by norm_num : (0 : ℝ) < 1)).filter_mono nhdsWithin_le_nhds
    have hlt2 : ∀ᶠ a in nhdsWithin (0 : ℝ) (Set.Ioi 0), a < 1 :=
      (eventually_lt_nhds (by norm_num : (0 : ℝ) < 1)).filter_mono nhdsWithin_le_nhds
    filter_upwards [hlt2, self_mem_nhdsWithin] with a h1 h0
    exact ⟨Set.mem_Ioi.mp h0, h1⟩
  have e2 : ∀ᶠ b in nhdsWithin (1 : ℝ) (Set.Iio 1), b ∈ Set.Ioo (0 : ℝ) 1 := by
    have hgt : ∀ᶠ b in nhdsWithin (1 : ℝ) (Set.Iio 1), 0 < b :=
      (eventually_gt_nhds (by norm_num : (0 : ℝ) < 1)).filter_mono nhdsWithin_le_nhds
    filter_upwards [hgt, self_mem_nhdsWithin] with b h0 h1
    exact ⟨h0, Set.mem_Iio.mp h1⟩
  filter_upwards [e1.prod_mk e2] with p hp
  exact (integral_transformed_double p.1 p.2 hp.1 hp.2).symm

theorem eventually_abs_sub_le_of_tendsto {α : Type} {l : Filter α} {F : α → ℝ}
    {L tol : ℝ} (htol : 0 < tol) (h : Filter.Tendsto F l (nhds L)) :
    ∀ᶠ x in l, |F x - L| ≤ tol := by
  have hball : {y : ℝ | |y - L| ≤ tol} ∈ nhds L := by
    have hb := Metric.closedBall_mem_nhds L htol
    simpa [Metric.closedBall, Real.dist_eq] using hb
  exact h.eventually hball

/-- C1: the Bounds Normalizer maps a dimension with finite lower bound `low`
and +infinite upper bound through `x = low + u/(1-u)` with Jacobian
`1/(1-u)²` — the exact derivative of the map on `u ∈ (0,1)` — and, for the
integrand `f(x) = 1/(x²+1)`, the Jacobian-adjusted integrands produced by the
normalizer for the domains `[0,+∞)`, `(-∞,0]` and `(-∞,+∞)` integrate over
the sampling interval `(0,1)` to exactly `π/2`, `π/2` and `π`: the truncated
integrals converge to those values, hence are eventually within 1 percent
relative error of them — the quantities the Monte Carlo estimates converge
to. -/
theorem c1_infinite_bound_substitution :
    (∀ low u : ℝ,
      (substitutionFor (RBnd.val low) RBnd.posInf).forwardMap u = low + u / (1 - u) ∧
      (substitutionFor (RBnd.val low) RBnd.posInf).jacobian u = 1 / (1 - u) ^ 2) ∧
    (∀ low u : ℝ, u ∈ Set.Ioo (0 : ℝ) 1 →
      HasDerivAt ((substitutionFor (RBnd.val low) RBnd.posInf).forwardMap)
        ((substitutionFor (RBnd.val low) RBnd.posInf).jacobian u) u) ∧
    Filter.Tendsto (fun b : ℝ => ∫ u in (0 : ℝ)..b,
        transformedIntegrand cauchyIntegrand (substitutionFor (RBnd.val 0) RBnd.posInf) u)
      (nhdsWithin 1 (Set.Iio 1)) (nhds (Real.pi / 2)) ∧
    Filter.Tendsto (fun b : ℝ => ∫ u in (0 : ℝ)..b,
        transformedIntegrand cauchyIntegrand (substitutionFor RBnd.negInf (RBnd.val 0)) u)
      (nhdsWithin 1 (Set.Iio 1)) (nhds (Real.pi / 2)) ∧
    Filter.Tendsto (fun p : ℝ × ℝ => ∫ u in p.1..p.2,
        transformedIntegrand cauchyIntegrand (substitutionFor RBnd.negInf RBnd.posInf) u)
      ((nhdsWithin 0 (Set.Ioi 0)) ×ˢ (nhdsWithin 1 (Set.Iio 1))) (nhds Real.pi) ∧
    (∀ᶠ b in nhdsWithin (1 : ℝ) (Set.Iio 1),
      |(∫ u in (0 : ℝ)..b, transformedIntegrand cauchyIntegrand
          (substitutionFor (RBnd.val 0) RBnd.posInf) u) - Real.pi / 2| ≤
        (1 / 100) * (Real.pi / 2)) ∧
    (∀ᶠ b in nhdsWithin (1 : ℝ) (Set.Iio 1),
      |(∫ u in (0 : ℝ)..b, transformedIntegrand cauchyIntegrand
          (substitutionFor RBnd.negInf (RBnd.val 0)) u) - Real.pi / 2| ≤
        (1 / 100) * (Real.pi / 2)) ∧
    (∀ᶠ p in (nhdsWithin (0 : ℝ) (Set.Ioi 0)) ×ˢ (nhdsWithin (1 : ℝ) (Set.Iio 1)),
      |(∫ u in p.1..p.2, transformedIntegrand cauchyIntegrand
          (substitutionFor RBnd.negInf RBnd.posInf) u) - Real.pi| ≤
        (1 / 100) * Real.pi) := by
  have hpi2 : (0 : ℝ) < (1 / 100) * (Real.pi / 2) := by
    have := Real.pi_pos
    positivity
  have hpi1 : (0 : ℝ) < (1 / 100) * Real.pi := by
    have := Real.pi_pos
    positivity
  refine ⟨fun low u => ⟨rfl, rfl⟩, ?_, tendsto_integral_upper, tendsto_integral_lower,
    tendsto_integral_double,
    eventually_abs_sub_le_of_tendsto hpi2 tendsto_integral_upper,
    eventually_abs_sub_le_of_tendsto hpi2 tendsto_integral_lower,
    eventually_abs_sub_le_of_tendsto hpi1 tendsto_integral_double⟩
  intro low u hu
  exact hasDerivAt_upperMap low u hu.2.ne

/-- Witness for C1: the upper-infinite forward map and its Jacobian evaluated
at the concrete dimension (low = 5) and sampling point u = 1/2, where the
Jacobian is the map's actual derivative. -/
theorem c1_witness :
    ((substitutionFor (RBnd.val 5) RBnd.posInf).forwardMap (1 / 2) =
        5 + (1 / 2 : ℝ) / (1 - 1 / 2) ∧
      (substitutionFor (RBnd.val 5) RBnd.posInf).jacobian (1 / 2) =
        1 / ((1 : ℝ) - 1 / 2) ^ 2) ∧
    HasDerivAt ((substitutionFor (RBnd.val 5) RBnd.posInf).forwardMap)
      ((substitutionFor (RBnd.val 5) RBnd.posInf).jacobian (1 / 2)) (1 / 2) :=
  ⟨c1_infinite_bound_substitution.1 5 (1 / 2),
    c1_infinite_bound_substitution.2.1 5 (1 / 2) (by norm_num)⟩

end MonteCarlo
